import Mathlib

/-!
Shallow embedding of the axopy acquisition-and-timing core
(src/axopy/timing.py, src/axopy/daq.py, src/axopy/design.py),
together with proofs settling the specification claims.
-/

namespace Axopy

/-! ### Counter (src/axopy/timing.py, class Counter)

The `Transmitter` side effects are made explicit: `increment` returns the new
counter state together with a `Bool` that is `true` exactly when the `timeout`
event was emitted by that call. -/

structure Counter where
  max_count : Nat
  reset_on_timeout : Bool
  count : Nat
deriving Repr, DecidableEq

/-- `Counter.reset`: sets the count back to 0, emitting nothing. -/
def Counter.reset (c : Counter) : Counter :=
  { c with count := 0 }

/-- `Counter.increment`: `count += 1`; if the new count equals `max_count`,
reset (when `reset_on_timeout`) and emit `timeout`. -/
def Counter.increment (c : Counter) : Counter × Bool :=
  let n := c.count + 1
  if n = c.max_count then
    ((if c.reset_on_timeout then Counter.reset { c with count := n }
      else { c with count := n }), true)
  else
    ({ c with count := n }, false)

/-- Run `n` successive `increment` calls, returning the final state and the
per-call timeout-emission flags in call order. -/
def Counter.run : Counter → Nat → Counter × List Bool
  | c, 0 => (c, [])
  | c, n + 1 =>
    let p := c.increment
    let q := Counter.run p.1 n
    (q.1, p.2 :: q.2)

theorem Counter.increment_of_eq (c : Counter) (h : c.count + 1 = c.max_count)
    (hr : c.reset_on_timeout = true) :
    c.increment = ({ c with count := 0 }, true) := by
  simp [Counter.increment, Counter.reset, h, hr]

theorem Counter.increment_of_ne (c : Counter) (h : ¬ c.count + 1 = c.max_count) :
    c.increment = ({ c with count := c.count + 1 }, false) := by
  simp [Counter.increment, h]

/-- Behaviour of a run of a resetting counter starting at any in-range count:
the final count is the modular sum, and the `k`-th call (0-indexed) emits
`timeout` exactly when `max_count` divides `j + k + 1`. -/
theorem Counter.run_spec (m : Nat) (hm : 0 < m) :
    ∀ (n j : Nat), j < m →
      Counter.run ⟨m, true, j⟩ n =
        (⟨m, true, (j + n) % m⟩,
          (List.range n).map (fun k => decide (m ∣ (j + k + 1)))) := by
  intro n
  induction n with
  | zero =>
    intro j hj
    simp [Counter.run, Nat.mod_eq_of_lt hj]
  | succ n ih =>
    intro j hj
    by_cases h : j + 1 = m
    · have hinc : Counter.increment ⟨m, true, j⟩ = (⟨m, true, 0⟩, true) :=
        Counter.increment_of_eq ⟨m, true, j⟩ h rfl
      rw [Counter.run, hinc]
      simp only [ih 0 hm]
      rw [Prod.mk.injEq]
      refine ⟨?_, ?_⟩
      · rw [Counter.mk.injEq]
        refine ⟨rfl, rfl, ?_⟩
        rw [Nat.zero_add, show j + (n + 1) = m + n from by omega, Nat.add_mod_left]
      · rw [List.range_succ_eq_map]
        simp only [List.map_cons, List.map_map, Function.comp_apply,
          Nat.succ_eq_add_one, Nat.zero_add, List.cons.injEq]
        refine ⟨?_, ?_⟩
        · rw [show j + 0 + 1 = m from by omega]
          simp
        · refine List.map_congr_left fun k _ => ?_
          refine decide_eq_decide.mpr ?_
          rw [show j + (k + 1) + 1 = m + (k + 1) from by omega]
          exact (Nat.dvd_add_right (dvd_refl m)).symm
    · have hlt : j + 1 < m := Nat.lt_of_le_of_ne (Nat.succ_le_of_lt hj) h
      have hinc : Counter.increment ⟨m, true, j⟩ = (⟨m, true, j + 1⟩, false) :=
        Counter.increment_of_ne ⟨m, true, j⟩ h
      rw [Counter.run, hinc]
      simp only [ih (j + 1) hlt]
      rw [Prod.mk.injEq]
      refine ⟨?_, ?_⟩
      · rw [Counter.mk.injEq]
        refine ⟨rfl, rfl, ?_⟩
        rw [show j + 1 + n = j + (n + 1) from by omega]
      · rw [List.range_succ_eq_map]
        simp only [List.map_cons, List.map_map, Function.comp_apply,
          Nat.succ_eq_add_one, List.cons.injEq]
        refine ⟨?_, ?_⟩
        · have hnd : ¬ m ∣ (j + 0 + 1) := by
            intro hd
            have := Nat.le_of_dvd (by omega) hd
            omega
          simp [hnd]
        · refine List.map_congr_left fun k _ => ?_
          refine decide_eq_decide.mpr ?_
          rw [show j + 1 + k + 1 = j + (k + 1) + 1 from by omega]

/-- C2 (amended): for a Counter with `reset_on_timeout = true` (the default),
over any finite sequence of `increment()` calls the count stays in
`[0, max_count)` and `timeout` is emitted exactly on the calls whose 1-based
position is a multiple of `max_count`. -/
theorem counter_count_bounded_timeout_periodic (m n : Nat) (hm : 0 < m) :
    0 ≤ (Counter.run ⟨m, true, 0⟩ n).1.count ∧
    (Counter.run ⟨m, true, 0⟩ n).1.count < m ∧
    (Counter.run ⟨m, true, 0⟩ n).1.count = n % m ∧
    (Counter.run ⟨m, true, 0⟩ n).2 =
      (List.range n).map (fun k => decide (m ∣ (k + 1))) := by
  have h := Counter.run_spec m hm n 0 hm
  rw [h]
  refine ⟨Nat.zero_le _, ?_, ?_, ?_⟩
  · exact Nat.mod_lt _ hm
  · simp
  · simp

/-- Witness for C2's amended theorem at `max_count = 2`, four increments. -/
theorem counter_count_bounded_timeout_periodic_witness :
    0 < 2 ∧
    (0 ≤ (Counter.run ⟨2, true, 0⟩ 4).1.count ∧
     (Counter.run ⟨2, true, 0⟩ 4).1.count < 2 ∧
     (Counter.run ⟨2, true, 0⟩ 4).1.count = 4 % 2 ∧
     (Counter.run ⟨2, true, 0⟩ 4).2 =
       (List.range 4).map (fun k => decide (2 ∣ (k + 1)))) :=
  ⟨by decide, counter_count_bounded_timeout_periodic 2 4 (by decide)⟩

/-- C2 counterexample: a Counter constructed with `reset_on_timeout = false`
leaves `count = max_count` after `max_count` increments, so the count does not
stay in `[0, max_count)` for *every* Counter. -/
theorem counter_count_escapes_without_reset :
    ¬ ((Counter.run ⟨2, false, 0⟩ 2).1.count < 2) := by decide

/-! ### StepCounter (src/axopy/timing.py, class StepCounter)

The source keeps a list `step_count` of checkpoint values and a bank of ten
transmitters `step0 .. step9`; `add_step(count, event)` connects `event` to the
transmitter at index `step_inc` and appends `count` to `step_count`.  We model
the pair (checkpoint value, connected event id) as one entry of `steps`, and
keep the source's separate `step_inc` counter.  Emission of `step{i}` is
modelled as the event id stored at index `i`. -/

inductive SCEvent (σ : Type) where
  | step (id : σ)
  | timeout
deriving Repr, DecidableEq

structure StepCounter (σ : Type) where
  max_count : Nat
  reset_on_timeout : Bool
  count : Nat
  step_inc : Nat
  steps : List (Nat × σ)
deriving Repr, DecidableEq

/-- The source's fixed transmitter bank size: `step_max = 10`. -/
def step_bank_size : Nat := 10

/-- `StepCounter.add_step`: register a (checkpoint, event) pair only while
fewer than `step_max` transmitters have been used; otherwise do nothing. -/
def StepCounter.add_step (s : StepCounter σ) (cnt : Nat) (ev : σ) : StepCounter σ :=
  if s.step_inc < step_bank_size then
    { s with steps := s.steps ++ [(cnt, ev)], step_inc := s.step_inc + 1 }
  else s

/-- `StepCounter.increment`: `count += 1`; emit the event of every registered
pair whose checkpoint equals the new count (in registration order); then, if
the new count equals `max_count`, reset (when `reset_on_timeout`) and emit
`timeout`. -/
def StepCounter.increment [DecidableEq σ] (s : StepCounter σ) :
    StepCounter σ × List (SCEvent σ) :=
  let n := s.count + 1
  let stepEvs := (s.steps.filter (fun p => p.1 == n)).map (fun p => SCEvent.step p.2)
  if n = s.max_count then
    ((if s.reset_on_timeout then { s with count := 0 } else { s with count := n }),
      stepEvs ++ [SCEvent.timeout])
  else ({ s with count := n }, stepEvs)

/-- Run `n` successive `increment` calls, returning the final state and the
per-call event lists in call order. -/
def StepCounter.run [DecidableEq σ] : StepCounter σ → Nat → StepCounter σ × List (List (SCEvent σ))
  | s, 0 => (s, [])
  | s, n + 1 =>
    let p := s.increment
    let q := StepCounter.run p.1 n
    (q.1, p.2 :: q.2)

/-- The Counter carried inside a StepCounter (StepCounter extends Counter). -/
def StepCounter.toCounter (s : StepCounter σ) : Counter :=
  ⟨s.max_count, s.reset_on_timeout, s.count⟩

/-- Scenario state for C6: `StepCounter(max_count=5)` with checkpoints
(2,"a"), (2,"b"), (4,"c") registered via `add_step`. -/
def scDemo : StepCounter String :=
  (((StepCounter.mk 5 true 0 0 []).add_step 2 "a").add_step 2 "b").add_step 4 "c"

/-- C6: on every `increment`, a step event fires for every registered pair
whose checkpoint equals the new count — all of them, in registration order,
before the timeout condition is evaluated — and the timeout condition and
count update agree exactly with `Counter.increment`; and in the concrete
scenario (checkpoints (2,"a"), (2,"b"), (4,"c"), `max_count = 5`) the 2nd
increment fires "a" and "b", the 4th fires "c", and the 5th fires `timeout`. -/
theorem stepcounter_steps_then_timeout :
    (∀ (σ : Type) (inst : DecidableEq σ) (s : StepCounter σ),
      (s.increment.2 =
        ((s.steps.filter (fun p => p.1 == s.count + 1)).map (fun p => SCEvent.step p.2)) ++
          (if s.count + 1 = s.max_count then [SCEvent.timeout] else [])) ∧
      s.increment.1.toCounter = s.toCounter.increment.1 ∧
      (SCEvent.timeout ∈ s.increment.2 ↔ s.toCounter.increment.2 = true) ∧
      s.increment.1.steps = s.steps) ∧
    (scDemo.run 5).2 =
      [[], [SCEvent.step "a", SCEvent.step "b"], [], [SCEvent.step "c"],
        [SCEvent.timeout]] := by
  constructor
  · intro σ inst s
    refine ⟨?_, ?_, ?_, ?_⟩
    · by_cases h : s.count + 1 = s.max_count <;>
        simp [StepCounter.increment, h]
    · by_cases h : s.count + 1 = s.max_count <;>
        by_cases hr : s.reset_on_timeout <;>
        simp [StepCounter.increment, Counter.increment, Counter.reset,
          StepCounter.toCounter, h, hr]
    · by_cases h : s.count + 1 = s.max_count <;>
        simp [StepCounter.increment, Counter.increment, StepCounter.toCounter, h,
          List.mem_map]
    · by_cases h : s.count + 1 = s.max_count <;>
        by_cases hr : s.reset_on_timeout <;>
        simp [StepCounter.increment, h, hr]
  · rfl

/-- Events of every registered step id fired by an increment come from the
registered list, and `increment` never changes the registered list. -/
theorem StepCounter.run_step_mem [DecidableEq σ] (s : StepCounter σ) (n : Nat)
    (e : σ) (h : SCEvent.step e ∈ (StepCounter.run s n).2.flatten) :
    e ∈ s.steps.map Prod.snd := by
  induction n generalizing s with
  | zero => simp [StepCounter.run] at h
  | succ n ih =>
    simp only [StepCounter.run, List.flatten_cons, List.mem_append] at h
    rcases h with h | h
    · -- fired by the first increment
      have : SCEvent.step e ∈ s.increment.2 := h
      unfold StepCounter.increment at this
      by_cases hc : s.count + 1 = s.max_count
      · simp [hc, List.mem_filter] at this
        exact List.mem_map.mpr ⟨(s.max_count, e), this, rfl⟩
      · simp [hc, List.mem_filter] at this
        exact List.mem_map.mpr ⟨(s.count + 1, e), this, rfl⟩
    · have hsteps : s.increment.1.steps = s.steps := by
        unfold StepCounter.increment
        by_cases hc : s.count + 1 = s.max_count <;>
          by_cases hr : s.reset_on_timeout <;> simp [hc, hr]
      have := ih s.increment.1 h
      rwa [hsteps] at this

/-- C10: the registered list never exceeds the bank size 10; an `add_step`
call made when 10 pairs are already registered leaves the counter unchanged
(no error is raised), and the dropped step id is never fired by any
subsequent `increment()`. -/
theorem stepcounter_add_step_bound [DecidableEq σ] (s : StepCounter σ)
    (cnt : Nat) (ev : σ)
    (hwf : s.step_inc = s.steps.length) :
    ((s.add_step cnt ev).steps.length ≤ max s.steps.length step_bank_size) ∧
    ((s.add_step cnt ev).step_inc = (s.add_step cnt ev).steps.length) ∧
    (s.steps.length = step_bank_size → s.add_step cnt ev = s) ∧
    (s.steps.length = step_bank_size → ev ∉ s.steps.map Prod.snd →
      ∀ n, SCEvent.step ev ∉ ((s.add_step cnt ev).run n).2.flatten) := by
  refine ⟨?_, ?_, ?_, ?_⟩
  · unfold StepCounter.add_step
    by_cases h : s.step_inc < step_bank_size <;> simp [h] <;> omega
  · unfold StepCounter.add_step
    by_cases h : s.step_inc < step_bank_size
    · rw [if_pos h]
      simp [hwf]
    · rw [if_neg h]
      exact hwf
  · intro hfull
    unfold StepCounter.add_step
    have : ¬ s.step_inc < step_bank_size := by omega
    simp [this]
  · intro hfull hev n hmem
    have heq : s.add_step cnt ev = s := by
      unfold StepCounter.add_step
      have : ¬ s.step_inc < step_bank_size := by omega
      simp [this]
    rw [heq] at hmem
    exact hev (StepCounter.run_step_mem s n ev hmem)

/-- Witness for C10 at a concrete full StepCounter over `Nat` ids. -/
theorem stepcounter_add_step_bound_witness :
    ((StepCounter.mk 5 true 0 10
        [(1,0),(1,1),(1,2),(1,3),(1,4),(1,5),(1,6),(1,7),(1,8),(1,9)] :
        StepCounter Nat).step_inc =
      (StepCounter.mk 5 true 0 10
        [(1,0),(1,1),(1,2),(1,3),(1,4),(1,5),(1,6),(1,7),(1,8),(1,9)] :
        StepCounter Nat).steps.length) ∧
    (((StepCounter.mk 5 true 0 10
        [(1,0),(1,1),(1,2),(1,3),(1,4),(1,5),(1,6),(1,7),(1,8),(1,9)] :
        StepCounter Nat).add_step 3 42).steps.length ≤
      max 10 step_bank_size) := by
  refine ⟨by decide, ?_⟩
  have h := stepcounter_add_step_bound
    (StepCounter.mk 5 true 0 10
      [(1,0),(1,1),(1,2),(1,3),(1,4),(1,5),(1,6),(1,7),(1,8),(1,9)] :
      StepCounter Nat) 3 42 (by decide)
  exact h.1

/-! ### DaqStream worker loop (src/axopy/daq.py, DaqStream.run)

The worker loop is embedded as a function of the device's read outcomes and
of the `_running` flag.  `reads i` is the outcome of the `i`-th `device.read()`
call (`ioError` models the `IOError` the loop catches).  The `_running` flag is
shared with `stop()`; `flag k` is its value at the `k`-th time the loop reads
it (the loop reads it twice per iteration: once at the top, once before
emitting `updated`).  The result records the events emitted in order and
whether `device.stop()` was called; `none` means the loop was still running
after `fuel` iterations. -/

inductive ReadResult (α : Type) where
  | ok (chunk : α)
  | ioError
deriving Repr, DecidableEq

inductive StreamEvent (α : Type) where
  | updated (chunk : α)
  | disconnected
  | finished
deriving Repr, DecidableEq

structure RunOutcome (α : Type) where
  events : List (StreamEvent α)
  deviceStopped : Bool
deriving Repr, DecidableEq

def runLoopFrom (flag : Nat → Bool) (reads : Nat → ReadResult α) :
    Nat → Nat → Option (RunOutcome α)
  | _, 0 => none
  | i, fuel + 1 =>
    if flag (2 * i) = false then
      -- `if not self._running: break` → `self.device.stop(); self.finished.emit()`
      some ⟨[StreamEvent.finished], true⟩
    else
      match reads i with
      | ReadResult.ioError =>
        -- `except IOError: self.disconnected.emit(); return`
        some ⟨[StreamEvent.disconnected], false⟩
      | ReadResult.ok c =>
        (runLoopFrom flag reads (i + 1) fuel).map fun r =>
          ⟨(if flag (2 * i + 1) = true then [StreamEvent.updated c] else []) ++ r.events,
            r.deviceStopped⟩

/-- The whole worker body: the loop starting at the first read. -/
def runLoop (flag : Nat → Bool) (reads : Nat → ReadResult α) (fuel : Nat) :
    Option (RunOutcome α) :=
  runLoopFrom flag reads 0 fuel

/-- C1: over a device whose first two reads succeed and whose third read
raises the device-disconnection error, with `stop()` never called (the flag
stays true), the loop emits exactly `updated c1`, `updated c2`,
`disconnected` — two "updated" events, then one "disconnected", never a
"finished" — and exits without calling the device's `stop()`. -/
theorem daqstream_third_read_disconnects [DecidableEq α] (reads : Nat → ReadResult α)
    (c1 c2 : α) (h0 : reads 0 = ReadResult.ok c1) (h1 : reads 1 = ReadResult.ok c2)
    (h2 : reads 2 = ReadResult.ioError) (fuel : Nat) (hf : 3 ≤ fuel) :
    runLoop (fun _ => true) reads fuel =
      some ⟨[StreamEvent.updated c1, StreamEvent.updated c2, StreamEvent.disconnected],
        false⟩ ∧
    (∀ r, runLoop (fun _ => true) reads fuel = some r →
      r.events.count (StreamEvent.disconnected) = 1 ∧
      StreamEvent.finished ∉ r.events ∧
      r.deviceStopped = false) := by
  obtain ⟨k, rfl⟩ : ∃ k, fuel = k + 3 := ⟨fuel - 3, by omega⟩
  have hrun : runLoop (fun _ => true) reads (k + 3) =
      some ⟨[StreamEvent.updated c1, StreamEvent.updated c2, StreamEvent.disconnected],
        false⟩ := by
    show runLoopFrom (fun _ => true) reads 0 (k + 3) = _
    rw [runLoopFrom]
    simp only [h0, if_neg (by simp : ¬ (true = false))]
    rw [runLoopFrom]
    simp only [h1, if_neg (by simp : ¬ (true = false))]
    rw [runLoopFrom]
    simp only [h2, if_neg (by simp : ¬ (true = false))]
    simp
  refine ⟨hrun, ?_⟩
  intro r hr
  rw [hrun] at hr
  cases hr
  refine ⟨?_, ?_, rfl⟩
  · rfl
  · intro hmem
    simp at hmem

/-- Witness for C1 at a concrete two-chunk script over `Nat` chunks. -/
theorem daqstream_third_read_disconnects_witness :
    runLoop (fun _ => true)
      (fun i => if i = 0 then ReadResult.ok 5 else
        if i = 1 then ReadResult.ok 7 else ReadResult.ioError) 3 =
      some ⟨[StreamEvent.updated 5, StreamEvent.updated 7, StreamEvent.disconnected],
        false⟩ :=
  (daqstream_third_read_disconnects
    (fun i => if i = 0 then ReadResult.ok 5 else
      if i = 1 then ReadResult.ok 7 else ReadResult.ioError)
    5 7 rfl rfl rfl 3 (by decide)).1

/-! ### _Sleeper (src/axopy/daq.py, class _Sleeper)

Real time is made explicit: `sleepAt s t` is `sleep()` called at wall-clock
time `t` (the value of the first `time.time()`), and returns the time at which
the call returns together with the new state.  The idealization is that only
`time.sleep` advances the clock, so the trailing `time.time()` that the source
stores into `last_read_time` reads exactly the return time.  `time.sleep(x)`
with `x < 0` raises `ValueError`, which the source swallows (no sleep); with
`x ≥ 0` it blocks for `x`. -/

structure Sleeper where
  read_time : ℚ
  last_read_time : Option ℚ
deriving Repr, DecidableEq

/-- Duration actually slept by `sleep()` entered at time `t`. -/
def Sleeper.sleepDuration (s : Sleeper) (t : ℚ) : ℚ :=
  match s.last_read_time with
  | none => s.read_time
  | some last =>
    if s.read_time - (t - last) < 0 then 0 else s.read_time - (t - last)

/-- `_Sleeper.sleep` entered at time `t`: returns (return time, new state). -/
def Sleeper.sleepAt (s : Sleeper) (t : ℚ) : ℚ × Sleeper :=
  let ret := t + s.sleepDuration t
  (ret, { s with last_read_time := some ret })

/-- `_Sleeper.reset`: clears the last-call timestamp. -/
def Sleeper.reset (s : Sleeper) : Sleeper :=
  { s with last_read_time := none }

theorem Sleeper.sleepDuration_nonneg (s : Sleeper) (t : ℚ)
    (h : 0 ≤ s.read_time) : 0 ≤ s.sleepDuration t := by
  unfold Sleeper.sleepDuration
  cases s.last_read_time with
  | none => exact h
  | some last =>
    by_cases hc : s.read_time - (t - last) < 0 <;> simp [hc] <;> linarith

/-- C7: consider a previous `sleep()` call entered at `tPrev` and a next call
entered at `t1` (after the previous call returned).  The next call never
returns before `interval` has elapsed since the previous call's start: when on
schedule it returns exactly at `r0 + interval ≥ tPrev + interval`; when the
caller is already behind schedule it returns immediately at `t1` without
blocking for a negative duration; and the recorded timestamp is the actual
return time (at least `t1`), so missed deadlines are forgiven and never
compensated by shortening a future interval. -/
theorem sleeper_paced_no_compensation (interval tPrev t1 : ℚ)
    (hi : 0 ≤ interval) (s0 : Sleeper) (hrt : s0.read_time = interval)
    (ht : (s0.sleepAt tPrev).1 ≤ t1) :
    tPrev ≤ (s0.sleepAt tPrev).1 ∧
    (t1 ≤ (s0.sleepAt tPrev).1 + interval →
      ((s0.sleepAt tPrev).2.sleepAt t1).1 = (s0.sleepAt tPrev).1 + interval ∧
      tPrev + interval ≤ ((s0.sleepAt tPrev).2.sleepAt t1).1) ∧
    ((s0.sleepAt tPrev).1 + interval < t1 →
      ((s0.sleepAt tPrev).2.sleepAt t1).1 = t1) ∧
    t1 ≤ ((s0.sleepAt tPrev).2.sleepAt t1).1 ∧
    ((s0.sleepAt tPrev).2.sleepAt t1).2.last_read_time =
      some (((s0.sleepAt tPrev).2.sleepAt t1).1) := by
  have hd0 : 0 ≤ s0.sleepDuration tPrev := Sleeper.sleepDuration_nonneg s0 tPrev (hrt ▸ hi)
  have hr0 : tPrev ≤ (s0.sleepAt tPrev).1 := by
    show tPrev ≤ tPrev + s0.sleepDuration tPrev
    linarith
  have hstate : (s0.sleepAt tPrev).2.last_read_time = some ((s0.sleepAt tPrev).1) := rfl
  have hrt1 : (s0.sleepAt tPrev).2.read_time = interval := hrt
  have hdur : (s0.sleepAt tPrev).2.sleepDuration t1 =
      (if interval - (t1 - (s0.sleepAt tPrev).1) < 0 then 0
        else interval - (t1 - (s0.sleepAt tPrev).1)) := by
    unfold Sleeper.sleepDuration
    rw [hstate, hrt1]
  refine ⟨hr0, ?_, ?_, ?_, rfl⟩
  · intro hsched
    have hcond : ¬ (interval - (t1 - (s0.sleepAt tPrev).1) < 0) := by linarith
    constructor
    · show t1 + (s0.sleepAt tPrev).2.sleepDuration t1 = (s0.sleepAt tPrev).1 + interval
      rw [hdur, if_neg hcond]
      ring
    · show tPrev + interval ≤ t1 + (s0.sleepAt tPrev).2.sleepDuration t1
      rw [hdur, if_neg hcond]
      linarith
  · intro hlate
    have hcond : interval - (t1 - (s0.sleepAt tPrev).1) < 0 := by linarith
    show t1 + (s0.sleepAt tPrev).2.sleepDuration t1 = t1
    rw [hdur, if_pos hcond]
    ring
  · have : 0 ≤ (s0.sleepAt tPrev).2.sleepDuration t1 :=
      Sleeper.sleepDuration_nonneg _ t1 (hrt1 ▸ hi)
    show t1 ≤ t1 + (s0.sleepAt tPrev).2.sleepDuration t1
    linarith

/-- Witness for C7: interval 1, first call at time 0, next call at time 1. -/
theorem sleeper_paced_no_compensation_witness :
    (0 : ℚ) ≤ 1 ∧ (Sleeper.mk 1 none).read_time = 1 ∧
    ((Sleeper.mk 1 none).sleepAt 0).1 ≤ 1 ∧
    (0 ≤ ((Sleeper.mk 1 none).sleepAt 0).1 ∧
     (1 ≤ ((Sleeper.mk 1 none).sleepAt 0).1 + 1 →
       (((Sleeper.mk 1 none).sleepAt 0).2.sleepAt 1).1 =
         ((Sleeper.mk 1 none).sleepAt 0).1 + 1 ∧
       0 + 1 ≤ (((Sleeper.mk 1 none).sleepAt 0).2.sleepAt 1).1) ∧
     (((Sleeper.mk 1 none).sleepAt 0).1 + 1 < 1 →
       (((Sleeper.mk 1 none).sleepAt 0).2.sleepAt 1).1 = 1) ∧
     1 ≤ (((Sleeper.mk 1 none).sleepAt 0).2.sleepAt 1).1 ∧
     (((Sleeper.mk 1 none).sleepAt 0).2.sleepAt 1).2.last_read_time =
       some ((((Sleeper.mk 1 none).sleepAt 0).2.sleepAt 1).1)) :=
  ⟨by norm_num, rfl, by norm_num [Sleeper.sleepAt, Sleeper.sleepDuration],
    sleeper_paced_no_compensation 1 0 1 (by norm_num) (Sleeper.mk 1 none) rfl
      (by norm_num [Sleeper.sleepAt, Sleeper.sleepDuration])⟩

/-! ### BufferedArray (src/axopy/design.py, class BufferedArray)

The buffer is modelled along the insert axis: an element of type `α` stands
for one cross-section of the numpy buffer orthogonal to `insert_axis`, so the
buffer is a list of `capacity = buffer_dims[insert_axis]` cross-sections and a
chunk is either a multi-dimensional array contributing `shape[insert_axis]`
cross-sections (`ndim > 1`) or a single 1-D sample contributing one
(`ndim <= 1` — the source's `else` branch computing `new_sample = 1`).
`zero` is the dtype's zero used by `numpy.zeros` / `fill(0)`. -/

inductive Chunk (α : Type) where
  | nd (xs : List α)
  | sample (x : α)
deriving Repr, DecidableEq

/-- `new_sample`: the chunk's extent along the insert axis. -/
def Chunk.extent : Chunk α → Nat
  | .nd xs => xs.length
  | .sample _ => 1

/-- The cross-sections a chunk contributes, in axis order. -/
def Chunk.cells : Chunk α → List α
  | .nd xs => xs
  | .sample x => [x]

theorem Chunk.length_cells (c : Chunk α) : c.cells.length = c.extent := by
  cases c <;> rfl

structure BufferedArray (α : Type) where
  capacity : Nat
  zero : α
  buffer : List α
  pos : Nat
  overflow : Bool
  data : List α
deriving Repr, DecidableEq

/-- `BufferedArray.__init__`: zeroed buffer, `pos = 0`, no overflow, empty
`data`. -/
def BufferedArray.make (capacity : Nat) (zero : α) : BufferedArray α :=
  ⟨capacity, zero, List.replicate capacity zero, 0, false, []⟩

/-- `self.buffer[..., pos:new_pos, ...] = data`: overwrite the slice starting
at `p` with `cells`, leaving everything else in place. -/
def writeSlice (buf : List α) (p : Nat) (cells : List α) : List α :=
  buf.take p ++ cells ++ buf.drop (p + cells.length)

/-- `BufferedArray.insert`. -/
def BufferedArray.insert (b : BufferedArray α) (c : Chunk α) : BufferedArray α :=
  if b.overflow then b
  else
    let newPos := b.pos + c.extent
    if b.capacity < newPos then { b with overflow := true }
    else { b with buffer := writeSlice b.buffer b.pos c.cells, pos := newPos }

/-- `BufferedArray.clear`. -/
def BufferedArray.clear (b : BufferedArray α) : BufferedArray α :=
  { b with
    buffer := List.replicate b.capacity b.zero
    pos := 0
    overflow := false
    data := [] }

/-- `BufferedArray.set_data`: on overflow, return without touching `data`. -/
def BufferedArray.set_data (b : BufferedArray α) : BufferedArray α :=
  if b.overflow then b else { b with data := b.buffer.take b.pos }

/-- Insert a sequence of chunks in order. -/
def BufferedArray.insertAll (b : BufferedArray α) (cs : List (Chunk α)) : BufferedArray α :=
  cs.foldl BufferedArray.insert b

theorem writeSlice_length (buf : List α) (p : Nat) (cells : List α)
    (h : p + cells.length ≤ buf.length) :
    (writeSlice buf p cells).length = buf.length := by
  unfold writeSlice
  simp only [List.length_append, List.length_take, List.length_drop]
  omega

theorem writeSlice_take (buf : List α) (p : Nat) (cells : List α)
    (h : p + cells.length ≤ buf.length) :
    (writeSlice buf p cells).take (p + cells.length) = buf.take p ++ cells := by
  unfold writeSlice
  have hl : (buf.take p ++ cells).length = p + cells.length := by
    rw [List.length_append, List.length_take]
    omega
  rw [List.take_left' hl]

theorem writeSlice_drop (buf : List α) (p : Nat) (cells : List α)
    (h : p + cells.length ≤ buf.length) :
    (writeSlice buf p cells).drop (p + cells.length) = buf.drop (p + cells.length) := by
  unfold writeSlice
  have hl : (buf.take p ++ cells).length = p + cells.length := by
    rw [List.length_append, List.length_take]
    omega
  rw [List.drop_left' hl]

theorem writeSlice_take_pos (buf : List α) (p : Nat) (cells : List α)
    (h : p + cells.length ≤ buf.length) :
    (writeSlice buf p cells).take p = buf.take p := by
  unfold writeSlice
  rw [List.take_append_of_le_length, List.take_append_of_le_length,
    List.take_take, Nat.min_self]
  · rw [List.length_take]
    omega
  · rw [List.length_append, List.length_take]
    omega

theorem BufferedArray.insert_of_overflow (b : BufferedArray α) (c : Chunk α)
    (h : b.overflow = true) : b.insert c = b := by
  unfold BufferedArray.insert
  rw [h]
  simp

theorem BufferedArray.insert_of_trigger (b : BufferedArray α) (c : Chunk α)
    (h : b.overflow = false) (hov : b.capacity < b.pos + c.extent) :
    b.insert c = { b with overflow := true } := by
  unfold BufferedArray.insert
  rw [h]
  simp only [Bool.false_eq_true, if_false]
  rw [if_pos hov]

theorem BufferedArray.insert_of_fits (b : BufferedArray α) (c : Chunk α)
    (h : b.overflow = false) (hle : b.pos + c.extent ≤ b.capacity) :
    b.insert c =
      { b with
        buffer := writeSlice b.buffer b.pos c.cells
        pos := b.pos + c.extent } := by
  unfold BufferedArray.insert
  rw [h]
  simp only [Bool.false_eq_true, if_false]
  rw [if_neg (by omega)]

/-- C3: `insert` is all-or-nothing and overflow is sticky until `clear`. -/
theorem bufferedarray_insert_all_or_nothing (b : BufferedArray α) (c : Chunk α)
    (hlen : b.buffer.length = b.capacity) :
    (b.overflow = true → b.insert c = b) ∧
    (b.overflow = false → b.capacity < b.pos + c.extent →
      (b.insert c).overflow = true ∧ (b.insert c).pos = b.pos ∧
      (b.insert c).buffer = b.buffer ∧ (b.insert c).data = b.data) ∧
    (b.overflow = false → b.pos + c.extent ≤ b.capacity →
      (b.insert c).overflow = false ∧
      (b.insert c).pos = b.pos + c.extent ∧
      (b.insert c).buffer = writeSlice b.buffer b.pos c.cells ∧
      (b.insert c).buffer.take b.pos = b.buffer.take b.pos ∧
      (b.insert c).buffer.drop (b.pos + c.extent) = b.buffer.drop (b.pos + c.extent) ∧
      ((b.insert c).buffer.take ((b.insert c).pos)).drop b.pos = c.cells) ∧
    (b.clear.pos = 0 ∧ b.clear.overflow = false ∧
      b.clear.buffer = List.replicate b.capacity b.zero ∧ b.clear.data = []) := by
  refine ⟨?_, ?_, ?_, ⟨rfl, rfl, rfl, rfl⟩⟩
  · intro h
    exact BufferedArray.insert_of_overflow b c h
  · intro h hov
    rw [BufferedArray.insert_of_trigger b c h hov]
    exact ⟨rfl, rfl, rfl, rfl⟩
  · intro h hle
    have hcells : c.cells.length = c.extent := Chunk.length_cells c
    have hwf : b.pos + c.cells.length ≤ b.buffer.length := by
      rw [hcells, hlen]
      exact hle
    rw [BufferedArray.insert_of_fits b c h hle]
    refine ⟨h, rfl, rfl, ?_, ?_, ?_⟩
    · exact writeSlice_take_pos b.buffer b.pos c.cells hwf
    · show (writeSlice b.buffer b.pos c.cells).drop (b.pos + c.extent) =
        b.buffer.drop (b.pos + c.extent)
      rw [← hcells]
      exact writeSlice_drop b.buffer b.pos c.cells hwf
    · show ((writeSlice b.buffer b.pos c.cells).take (b.pos + c.extent)).drop b.pos =
        c.cells
      rw [← hcells, writeSlice_take b.buffer b.pos c.cells hwf]
      have hp : (b.buffer.take b.pos).length = b.pos := by
        rw [List.length_take]
        omega
      rw [List.drop_left' hp]

/-- Witness for C3 at a concrete two-slot buffer over `Nat`. -/
theorem bufferedarray_insert_all_or_nothing_witness :
    ((BufferedArray.make 2 (0 : Nat)).insert (Chunk.sample 5)).overflow = false ∧
    ((BufferedArray.make 2 (0 : Nat)).insert (Chunk.sample 5)).pos =
      (BufferedArray.make 2 (0 : Nat)).pos + (Chunk.sample 5).extent ∧
    ((BufferedArray.make 2 (0 : Nat)).insert (Chunk.sample 5)).buffer =
      writeSlice (BufferedArray.make 2 (0 : Nat)).buffer
        (BufferedArray.make 2 (0 : Nat)).pos (Chunk.sample 5).cells ∧
    ((BufferedArray.make 2 (0 : Nat)).insert (Chunk.sample 5)).buffer.take
        (BufferedArray.make 2 (0 : Nat)).pos =
      (BufferedArray.make 2 (0 : Nat)).buffer.take (BufferedArray.make 2 (0 : Nat)).pos ∧
    ((BufferedArray.make 2 (0 : Nat)).insert (Chunk.sample 5)).buffer.drop
        ((BufferedArray.make 2 (0 : Nat)).pos + (Chunk.sample 5).extent) =
      (BufferedArray.make 2 (0 : Nat)).buffer.drop
        ((BufferedArray.make 2 (0 : Nat)).pos + (Chunk.sample 5).extent) ∧
    (((BufferedArray.make 2 (0 : Nat)).insert (Chunk.sample 5)).buffer.take
        (((BufferedArray.make 2 (0 : Nat)).insert (Chunk.sample 5)).pos)).drop
        (BufferedArray.make 2 (0 : Nat)).pos = (Chunk.sample 5).cells :=
  (bufferedarray_insert_all_or_nothing (BufferedArray.make 2 (0 : Nat))
    (Chunk.sample 5) (by decide)).2.2.1 (by decide) (by decide)

theorem Chunk.length_flatten_cells (cs : List (Chunk α)) :
    ((cs.map Chunk.cells).flatten).length = (cs.map Chunk.extent).sum := by
  rw [List.length_flatten]
  simp only [List.map_map]
  congr 1
  refine List.map_congr_left fun c _ => ?_
  exact Chunk.length_cells c

/-- Cumulative effect of inserting a chunk sequence that fits the remaining
capacity: no overflow, the cursor advances by the total extent, and the
buffer holds the previous prefix, then all the chunks' cells in order, then
the untouched suffix. -/
theorem BufferedArray.insertAll_spec (cs : List (Chunk α)) :
    ∀ b : BufferedArray α, b.overflow = false → b.buffer.length = b.capacity →
      b.pos + (cs.map Chunk.extent).sum ≤ b.capacity →
      (b.insertAll cs).overflow = false ∧
      (b.insertAll cs).pos = b.pos + (cs.map Chunk.extent).sum ∧
      (b.insertAll cs).capacity = b.capacity ∧
      (b.insertAll cs).data = b.data ∧
      (b.insertAll cs).buffer =
        b.buffer.take b.pos ++ (cs.map Chunk.cells).flatten
          ++ b.buffer.drop (b.pos + (cs.map Chunk.extent).sum) := by
  induction cs with
  | nil =>
    intro b h1 h2 h3
    refine ⟨h1, by simp [BufferedArray.insertAll], rfl, rfl, ?_⟩
    show b.buffer = _
    simp [List.take_append_drop]
  | cons c cs ih =>
    intro b h1 h2 h3
    have hsum : (List.map Chunk.extent (c :: cs)).sum =
        c.extent + (cs.map Chunk.extent).sum := by
      simp
    have hext : b.pos + c.extent ≤ b.capacity := by
      rw [hsum] at h3
      omega
    have hcells : c.cells.length = c.extent := Chunk.length_cells c
    have hwf : b.pos + c.cells.length ≤ b.buffer.length := by
      rw [hcells, h2]
      exact hext
    have heq : b.insert c =
        { b with
          buffer := writeSlice b.buffer b.pos c.cells
          pos := b.pos + c.extent } := BufferedArray.insert_of_fits b c h1 hext
    have hstep : b.insertAll (c :: cs) = (b.insert c).insertAll cs := rfl
    have h2' : (b.insert c).buffer.length = (b.insert c).capacity := by
      rw [heq]
      show (writeSlice b.buffer b.pos c.cells).length = b.capacity
      rw [writeSlice_length b.buffer b.pos c.cells hwf, h2]
    have h3' : (b.insert c).pos + (cs.map Chunk.extent).sum ≤ (b.insert c).capacity := by
      rw [heq]
      show b.pos + c.extent + _ ≤ b.capacity
      rw [hsum] at h3
      omega
    have h1' : (b.insert c).overflow = false := by
      rw [heq]
      exact h1
    obtain ⟨i1, i2, i3, i4, i5⟩ := ih (b.insert c) h1' h2' h3'
    rw [hstep]
    refine ⟨i1, ?_, ?_, ?_, ?_⟩
    · rw [i2, heq]
      show b.pos + c.extent + _ = _
      rw [hsum]
      omega
    · rw [i3, heq]
    · rw [i4, heq]
    · rw [i5, heq]
      show (writeSlice b.buffer b.pos c.cells).take (b.pos + c.extent)
          ++ (cs.map Chunk.cells).flatten
          ++ (writeSlice b.buffer b.pos c.cells).drop
            (b.pos + c.extent + (cs.map Chunk.extent).sum) = _
      have ht : (writeSlice b.buffer b.pos c.cells).take (b.pos + c.extent) =
          b.buffer.take b.pos ++ c.cells := by
        rw [← hcells]
        exact writeSlice_take b.buffer b.pos c.cells hwf
      have hd : (writeSlice b.buffer b.pos c.cells).drop
          (b.pos + c.extent + (cs.map Chunk.extent).sum) =
          b.buffer.drop (b.pos + c.extent + (cs.map Chunk.extent).sum) := by
        rw [← List.drop_drop]
        rw [← hcells]
        rw [writeSlice_drop b.buffer b.pos c.cells hwf]
        rw [List.drop_drop]
      rw [ht, hd, hsum]
      simp only [List.map_cons, List.flatten_cons, List.append_assoc]
      have : b.pos + c.extent + (List.map Chunk.extent cs).sum =
          b.pos + (c.extent + (List.map Chunk.extent cs).sum) := by omega
      rw [this]

/-- C4: starting from a fresh buffer, inserting any chunk sequence whose
cumulative extent along the insert axis is at most the capacity leaves
`overflow = false`, and `set_data()` then exposes exactly the concatenation
of the chunks' cells in insertion order. -/
theorem bufferedarray_concat_within_capacity (capacity : Nat) (zero : α)
    (cs : List (Chunk α)) (h : (cs.map Chunk.extent).sum ≤ capacity) :
    ((BufferedArray.make capacity zero).insertAll cs).overflow = false ∧
    (((BufferedArray.make capacity zero).insertAll cs).set_data).data =
      (cs.map Chunk.cells).flatten := by
  have hmk1 : (BufferedArray.make capacity zero).overflow = false := rfl
  have hmk2 : (BufferedArray.make capacity zero).buffer.length =
      (BufferedArray.make capacity zero).capacity := by
    show (List.replicate capacity zero).length = capacity
    exact List.length_replicate capacity zero
  have hmk3 : (BufferedArray.make capacity zero).pos + (cs.map Chunk.extent).sum ≤
      (BufferedArray.make capacity zero).capacity := by
    show 0 + _ ≤ capacity
    omega
  obtain ⟨hov, hpos, hcap, hdata, hbuf⟩ :=
    BufferedArray.insertAll_spec cs (BufferedArray.make capacity zero) hmk1 hmk2 hmk3
  refine ⟨hov, ?_⟩
  unfold BufferedArray.set_data
  rw [hov]
  simp only [Bool.false_eq_true, if_false]
  show ((BufferedArray.make capacity zero).insertAll cs).buffer.take
    ((BufferedArray.make capacity zero).insertAll cs).pos = _
  rw [hbuf, hpos]
  show (List.take 0 _ ++ _ ++ _).take (0 + _) = _
  rw [List.take_zero, List.nil_append, Nat.zero_add]
  have hl : ((cs.map Chunk.cells).flatten).length = (cs.map Chunk.extent).sum :=
    Chunk.length_flatten_cells cs
  rw [List.take_append_of_le_length (by omega), List.take_of_length_le (by omega)]

/-- Witness for C4: two single-sample chunks into a two-slot buffer. -/
theorem bufferedarray_concat_within_capacity_witness :
    (([Chunk.sample 5, Chunk.sample 7].map Chunk.extent).sum ≤ 2) ∧
    (((BufferedArray.make 2 (0 : Nat)).insertAll
        [Chunk.sample 5, Chunk.sample 7]).overflow = false ∧
      (((BufferedArray.make 2 (0 : Nat)).insertAll
          [Chunk.sample 5, Chunk.sample 7]).set_data).data =
        ([Chunk.sample 5, Chunk.sample 7].map Chunk.cells).flatten) :=
  ⟨by decide,
    bufferedarray_concat_within_capacity 2 0 [Chunk.sample 5, Chunk.sample 7]
      (by decide)⟩

/-- C5 (code bug): `set_data()` returns early on overflow *without clearing*
`data`, so a finalized result from before the overflow stays visible.  With a
one-slot buffer: insert a sample, `set_data` (data = [5]), insert another
sample (overflow), `set_data` again — `overflow` is true yet `data` is the
stale non-empty `[5]`, contradicting "data is empty whenever overflow". -/
theorem bufferedarray_overflow_stale_data :
    ((((BufferedArray.make 1 (0 : Nat)).insert (Chunk.sample 5)).set_data.insert
        (Chunk.sample 7)).set_data.overflow = true) ∧
    ((((BufferedArray.make 1 (0 : Nat)).insert (Chunk.sample 5)).set_data.insert
        (Chunk.sample 7)).set_data.data = [5]) := by
  decide

/-! ### Design / Block / Trial (src/axopy/design.py)

Trial attribute dictionaries are modelled as insertion-ordered association
lists with Python `dict` update semantics: assigning an existing key replaces
its value in place, assigning a new key appends it.  Attribute values are the
scalars the claims need. -/

inductive PyVal where
  | int (n : Int)
  | str (s : String)
deriving Repr, DecidableEq

abbrev Attrs := List (String × PyVal)

/-- Python `d[k] = v`. -/
def dictSet (d : Attrs) (k : String) (v : PyVal) : Attrs :=
  if d.any (fun p => p.1 == k) then
    d.map (fun p => if p.1 == k then (k, v) else p)
  else d ++ [(k, v)]

/-- Python `d.update(upd)`: assign each pair of `upd` in order. -/
def dictUpdate (d upd : Attrs) : Attrs :=
  upd.foldl (fun acc p => dictSet acc p.1 p.2) d

/-- Python `d[k]` as an option. -/
def dictLookup (d : Attrs) (k : String) : Option PyVal :=
  (d.find? (fun p => p.1 == k)).map Prod.snd

/-- A Trial holds its scalar attributes (its `arrays` map plays no part in
the claims about the container hierarchy and is not modelled). -/
structure Trial where
  attrs : Attrs
deriving Repr, DecidableEq

structure Block where
  index : Nat
  trials : List Trial
deriving Repr, DecidableEq

/-- `Block.add_trial(attrs)`: `attrs.update({'block': index, 'trial': len(self)})`,
append the new Trial, return it. -/
def Block.add_trial (blk : Block) (attrs : Attrs) : Block × Trial :=
  let merged := dictUpdate attrs
    [("block", PyVal.int blk.index), ("trial", PyVal.int blk.trials.length)]
  let t : Trial := ⟨merged⟩
  ({ blk with trials := blk.trials ++ [t] }, t)

abbrev Design := List Block

/-- `Design.add_block()`: append a Block tagged with its index, return it. -/
def Design.add_block (d : Design) : Design × Block :=
  let blk : Block := ⟨d.length, []⟩
  (d ++ [blk], blk)

theorem dictSet_lookup_self (d : Attrs) (k : String) (v : PyVal) :
    dictLookup (dictSet d k v) k = some v := by
  unfold dictSet dictLookup
  by_cases h : d.any (fun p => p.1 == k)
  · rw [if_pos h]
    induction d with
    | nil => simp at h
    | cons p d ih =>
      rw [List.map_cons]
      by_cases hp : (p.1 == k) = true
      · rw [if_pos hp, List.find?_cons_of_pos _ (by simp)]
        rfl
      · rw [if_neg hp, List.find?_cons_of_neg _ (by simpa using hp)]
        apply ih
        simp only [List.any_cons, hp, Bool.false_or] at h
        exact h
  · rw [if_neg h, List.find?_append]
    have hnone : d.find? (fun p => p.1 == k) = none := by
      rw [List.find?_eq_none]
      intro x hx hpx
      exact h (List.any_eq_true.mpr ⟨x, hx, hpx⟩)
    rw [hnone, Option.none_or, List.find?_cons_of_pos _ (by simp)]
    rfl

theorem dictSet_lookup_other (d : Attrs) (k k' : String) (v : PyVal)
    (hne : k ≠ k') :
    dictLookup (dictSet d k v) k' = dictLookup d k' := by
  unfold dictSet dictLookup
  by_cases h : d.any (fun p => p.1 == k)
  · rw [if_pos h]
    clear h
    congr 1
    induction d with
    | nil => rfl
    | cons p d ih =>
      rw [List.map_cons]
      by_cases hp : (p.1 == k) = true
      · have hpk : p.1 = k := by simpa using hp
        rw [if_pos hp, List.find?_cons_of_neg _ (by simpa using hne),
          List.find?_cons_of_neg _ (by simp [hpk]; simpa using hne)]
        exact ih
      · rw [if_neg hp]
        cases hb : (p.1 == k') with
        | true =>
          rw [List.find?_cons, List.find?_cons, hb]
        | false =>
          rw [List.find?_cons, List.find?_cons, hb]
          exact ih
  · rw [if_neg h]
    clear h
    rw [List.find?_append]
    have h1 : List.find? (fun p => p.1 == k') [(k, v)] = none := by
      rw [List.find?_cons_of_neg _ (by simpa using hne)]
      rfl
    rw [h1, Option.or_none]

/-- C8: `add_trial` appends a trial whose attrs hold `block` = the block's
index and `trial` = the trial's position at creation time, overwriting any
caller-supplied values for those keys and preserving every other caller
attribute; and the concrete scenario
`Design.add_block().add_trial({"target": 3}).attrs`
is exactly `{"target": 3, "block": 0, "trial": 0}`. -/
theorem block_add_trial_attrs :
    (∀ (blk : Block) (attrs : Attrs),
      dictLookup ((blk.add_trial attrs).2.attrs) "block" = some (PyVal.int blk.index) ∧
      dictLookup ((blk.add_trial attrs).2.attrs) "trial" =
        some (PyVal.int blk.trials.length) ∧
      (∀ k, k ≠ "block" → k ≠ "trial" →
        dictLookup ((blk.add_trial attrs).2.attrs) k = dictLookup attrs k) ∧
      (blk.add_trial attrs).1.trials = blk.trials ++ [(blk.add_trial attrs).2]) ∧
    ((Design.add_block []).2.add_trial [("target", PyVal.int 3)]).2.attrs =
      [("target", PyVal.int 3), ("block", PyVal.int 0), ("trial", PyVal.int 0)] := by
  constructor
  · intro blk attrs
    have hshape : (blk.add_trial attrs).2.attrs =
        dictSet (dictSet attrs "block" (PyVal.int blk.index)) "trial"
          (PyVal.int blk.trials.length) := rfl
    refine ⟨?_, ?_, ?_, rfl⟩
    · rw [hshape, dictSet_lookup_other _ _ _ _ (by decide),
        dictSet_lookup_self]
    · rw [hshape, dictSet_lookup_self]
    · intro k hkb hkt
      rw [hshape, dictSet_lookup_other _ _ _ _ (Ne.symm hkt),
        dictSet_lookup_other _ _ _ _ (Ne.symm hkb)]
  · rfl

/-- Witness for C8: the preserved-key part applied at a concrete block,
caller attrs `{"target": 3}` and key `"target"`. -/
theorem block_add_trial_attrs_witness :
    dictLookup (((Block.mk 0 []).add_trial [("target", PyVal.int 3)]).2.attrs)
        "target" =
      dictLookup [("target", PyVal.int 3)] "target" :=
  (block_add_trial_attrs.1 (Block.mk 0 []) [("target", PyVal.int 3)]).2.2.1
    "target" (by decide) (by decide)

/-! ### Block.shuffle (src/axopy/design.py, Block.shuffle)

`random.shuffle` is CPython library code, not part of this repository; it is
modelled faithfully as the Fisher–Yates loop CPython runs
(`for i in reversed(range(1, len(x))): j = _randbelow(i+1); swap x[i], x[j]`),
parametric in the PRNG: `G` is the global `random` module state, `rb g bound`
is `_randbelow(bound)` returning the drawn index and the advanced state, and
`seedInit s` is the state `random.seed(s)` installs.  Every theorem below
holds for *every* such PRNG implementation. -/

/-- `x[i], x[j] = x[j], x[i]` (a no-op if an index is out of range, which
never happens for the indices the loop produces with an in-range PRNG). -/
def swapL (l : List α) (i j : Nat) : List α :=
  match l.get? i, l.get? j with
  | some a, some b => (l.set i b).set j a
  | _, _ => l

/-- The Fisher–Yates loop of `random.shuffle`, counting `i` down to 1. -/
def shuffleSteps {G : Type} (rb : G → Nat → Nat × G) :
    Nat → G → List α → List α × G
  | 0, g, l => (l, g)
  | ip + 1, g, l =>
    let p := rb g (ip + 1 + 1)
    shuffleSteps rb ip p.2 (swapL l (ip + 1) p.1)

/-- `random.shuffle(x)` under global RNG state `g`. -/
def pyShuffle {G : Type} (rb : G → Nat → Nat × G) (g : G) (l : List α) :
    List α × G :=
  shuffleSteps rb (l.length - 1) g l

/-- `Block.shuffle(reset_index, seed)`: optionally reseed the global RNG,
shuffle the trial list in place, and, when `reset_index` is set, rewrite each
trial's `trial` attribute to its new position. -/
def Block.shuffle {G : Type} (rb : G → Nat → Nat × G) (seedInit : Nat → G)
    (g : G) (reset_index : Bool) (seed : Option Nat) (blk : Block) :
    Block × G :=
  let g0 := match seed with
    | some s => seedInit s
    | none => g
  let p := pyShuffle rb g0 blk.trials
  let ts1 := if reset_index then
      ((List.range p.1.length).zip p.1).map
        (fun q => ⟨dictSet q.2.attrs "trial" (PyVal.int q.1)⟩)
    else p.1
  ({ blk with trials := ts1 }, p.2)

theorem swapL_map (f : α → β) (l : List α) (i j : Nat) :
    swapL (l.map f) i j = (swapL l i j).map f := by
  unfold swapL
  rw [List.get?_eq_getElem?, List.get?_eq_getElem?, List.get?_eq_getElem?,
    List.get?_eq_getElem?, List.getElem?_map, List.getElem?_map]
  cases hi : l[i]? <;> cases hj : l[j]? <;> simp [List.map_set]

theorem shuffleSteps_map {G : Type} (rb : G → Nat → Nat × G) (f : α → β) :
    ∀ (n : Nat) (g : G) (l : List α),
      shuffleSteps rb n g (l.map f) =
        ((shuffleSteps rb n g l).1.map f, (shuffleSteps rb n g l).2) := by
  intro n
  induction n with
  | zero => intro g l; rfl
  | succ n ih =>
    intro g l
    show shuffleSteps rb n _ (swapL (l.map f) (n + 1) _) = _
    rw [swapL_map]
    rw [ih]
    rfl

/-- The whole shuffle commutes with `map`: the permutation applied depends
only on the RNG draws and the list's length, not on its contents. -/
theorem pyShuffle_map {G : Type} (rb : G → Nat → Nat × G) (f : α → β)
    (g : G) (l : List α) :
    pyShuffle rb g (l.map f) =
      ((pyShuffle rb g l).1.map f, (pyShuffle rb g l).2) := by
  unfold pyShuffle
  rw [List.length_map]
  exact shuffleSteps_map rb f (l.length - 1) g l

/-- C9: with a given seed, `Block.shuffle` is a deterministic function of the
seed — the pre-existing global RNG state is irrelevant, so two structurally
identical blocks shuffled independently with the same seed end up identical —
and the permutation it applies is a function only of the seed and the list
length (it commutes with any relabelling of the trials). -/
theorem block_shuffle_seed_deterministic :
    (∀ (G : Type) (rb : G → Nat → Nat × G) (seedInit : Nat → G)
      (g1 g2 : G) (s : Nat) (r : Bool) (blk : Block),
      Block.shuffle rb seedInit g1 r (some s) blk =
        Block.shuffle rb seedInit g2 r (some s) blk) ∧
    (∀ (G : Type) (rb : G → Nat → Nat × G) (g : G) (l : List Trial)
      (f : Trial → Trial),
      (pyShuffle rb g (l.map f)).1 = ((pyShuffle rb g l).1.map f)) := by
  constructor
  · intro G rb seedInit g1 g2 s r blk
    rfl
  · intro G rb g l f
    rw [pyShuffle_map]

end Axopy
